import Mathlib

/-!
Verification of the plane-geometry core of bg-heatmaps
(`src/bgheatmaps/plane.py`), shallowly embedded over the reals.

Conventions of the embedding:
* numpy 3-vectors become `Vec3 := Fin 3 → ℝ`; numpy floats become `ℝ`.
* A python function that can raise (`assert`, `IndexError`) returns `Option`:
  `none` models the raised error.
* Dividing a vector by a zero norm produces NaN components in numpy, and
  `np.isclose(nan, 0)` is `False`, so the `assert` in `Plane.__init__` fails.
  The embedding models this by making construction fail when a norm is zero.
* The external vedo/VTK mesh primitives (`intersect_with_plane`, `points`,
  `splitByConnectivity`, `join`) are opaque to the repository code; they are
  modelled as an abstract operations record `MeshOps` over an opaque mesh
  type, so that the control flow of `Plane.get_projections` — which is
  repository code — is embedded exactly.
* The python dict built by `get_projections` (insertion ordered, keys unique
  per run because actor names are distinct) is modelled as an association
  list in insertion order.
-/

namespace BGH

open Classical

noncomputable section

/-- A numpy 3-vector. -/
abbrev Vec3 := Fin 3 → ℝ

/-- Build a `Vec3` from components. -/
def vec (a b c : ℝ) : Vec3 := fun i =>
  match i with
  | 0 => a
  | 1 => b
  | 2 => c

/-- `np.dot` on 3-vectors. -/
def dot3 (a b : Vec3) : ℝ := a 0 * b 0 + a 1 * b 1 + a 2 * b 2

/-- `np.cross` on 3-vectors. -/
def cross3 (a b : Vec3) : Vec3 := fun i =>
  match i with
  | 0 => a 1 * b 2 - a 2 * b 1
  | 1 => a 2 * b 0 - a 0 * b 2
  | 2 => a 0 * b 1 - a 1 * b 0

/-- Componentwise vector difference, `p - c` on numpy arrays. -/
def sub3 (a b : Vec3) : Vec3 := fun i => a i - b i

/-- Componentwise division of a vector by a scalar, `u / s` on numpy arrays. -/
def div3 (a : Vec3) (s : ℝ) : Vec3 := fun i => a i / s

/-- `np.linalg.norm` of a 3-vector. -/
def norm3 (a : Vec3) : ℝ := Real.sqrt (dot3 a a)

/-- `np.isclose(a, b)` with the default tolerances `rtol=1e-5`, `atol=1e-8`:
`|a - b| <= atol + rtol * |b|`. -/
def np_isclose (a b : ℝ) : Prop := |a - b| ≤ (1e-8 : ℝ) + (1e-5 : ℝ) * |b|

/-- The `Plane` object of `plane.py`: the fields stored by `Plane.__init__`.
`M` is `np.vstack([u, v]).T`, a 3×2 matrix kept as its pair of columns;
note the source builds it from the *raw* constructor arguments `u, v`,
not from the normalized `self.u, self.v`. -/
structure Plane where
  center : Vec3
  u : Vec3
  v : Vec3
  normal : Vec3
  M : Vec3 × Vec3

/-- `Plane.__init__(origin, u, v)`:
stores `center = origin`, `u = u/‖u‖`, `v = v/‖v‖`,
asserts `np.isclose(dot(self.u, self.v), 0)` (an `AssertionError` — the
specification calls it `GeometryError` — is modelled as `none`; a zero norm
gives NaN components and also fails the assert, see the file header),
stores `normal = cross(self.u, self.v)` and `M = vstack([u, v]).T`. -/
def Plane.construct (origin u v : Vec3) : Option Plane :=
  let uh := div3 u (norm3 u)
  let vh := div3 v (norm3 v)
  if norm3 u ≠ 0 ∧ norm3 v ≠ 0 ∧ np_isclose (dot3 uh vh) 0 then
    some ⟨origin, uh, vh, cross3 uh vh, (u, v)⟩
  else none

/-- `np.where(norm != 0)[0][0]`: the lowest index with a nonzero component,
`none` when the vector is all zeros (an `IndexError` in python). -/
def firstNonzero (a : Vec3) : Option (Fin 3) :=
  if a 0 ≠ 0 then some 0
  else if a 1 ≠ 0 then some 1
  else if a 2 ≠ 0 then some 2
  else none

/-- The in-plane vector built by `Plane.from_norm` before normalization:
starting from `np.zeros(3)`, with `n = (m+1) % 3`, set `u[n] = norm[m]` and
`u[m] = -norm[n]`. -/
def u_of_norm (norm : Vec3) (m : Fin 3) : Vec3 :=
  let n : Fin 3 := ⟨(m.val + 1) % 3, Nat.mod_lt _ (by omega)⟩
  Function.update (Function.update (fun _ => (0 : ℝ)) n (norm m)) m (-(norm n))

/-- `Plane.from_norm(origin, norm)`: derive in-plane axes from a normal.
Builds `u` (see `u_of_norm`), normalizes `norm` and `u`, sets
`v = cross(norm, u)` and delegates to the constructor. -/
def Plane.from_norm (origin norm : Vec3) : Option Plane :=
  match firstNonzero norm with
  | none => none
  | some m =>
    let normh := div3 norm (norm3 norm)
    let uh := div3 (u_of_norm norm m) (norm3 (u_of_norm norm m))
    let v := cross3 normh uh
    Plane.construct origin uh v

/-- The data of the `vd.Plane`-backed display actor returned by
`Plane.to_mesh`: the arguments passed to `vd.Plane(pos, normal, sx, sy)`
plus the `width` attribute set afterwards. The formatted `name` string is
omitted (real numbers have no string rendering in the model). -/
structure PlaneMesh where
  pos : Vec3
  normal : Vec3
  sx : ℝ
  sy : ℝ
  br_class : String
  width : ℝ

/-- `Plane.to_mesh(actor)`: from the bounds `(xmin, xmax, ymin, ymax, zmin,
zmax)` of the external actor, `length = max` of the three extents, then
`length += length / 3`, and a square plane mesh of that side length at
`center` with this `normal` is produced. -/
def Plane.to_mesh (p : Plane) (bounds : Fin 6 → ℝ) : PlaneMesh :=
  let length := max (bounds 1 - bounds 0) (max (bounds 3 - bounds 2) (bounds 5 - bounds 4))
  let length2 := length + length / 3
  ⟨p.center, p.normal, length2, length2, "plane_mesh", length2⟩

/-- `Plane.centerOfMass()`. -/
def Plane.centerOfMass (p : Plane) : Vec3 := p.center

/-- `Plane.P3toP2(ps)`: `(ps - self.center) @ self.M`, mapping each 3D point
to its pair of dot products with the two columns of `M`. -/
def Plane.P3toP2 (p : Plane) (ps : List Vec3) : List (ℝ × ℝ) :=
  ps.map fun q => (dot3 (sub3 q p.center) p.M.1, dot3 (sub3 q p.center) p.M.2)

/-- The external vedo/VTK mesh primitives used by `plane.py`, over an opaque
mesh type `M`: the module-level `intersect_with_plane(mesh, origin, normal)`
cutter, and the vedo methods `points()`, `splitByConnectivity()` and
`join(reset=True)`. -/
structure MeshOps (M : Type) where
  intersect_with_plane : M → Vec3 → Vec3 → M
  points : M → List Vec3
  splitByConnectivity : M → List M
  join : M → M

/-- A brainrender `Actor` as seen by `Plane.get_projections`: a name, the
`mesh` attribute, and the optional `_mesh` attribute (present only when some
upstream step, e.g. a hemisphere cut, stored a modified mesh). -/
structure Actor (M : Type) where
  name : String
  mesh : M
  _mesh : Option M

/-- The mesh `Plane.get_projections` slices for a given actor: `actor._mesh`
when the attribute is present, else `actor.mesh`. -/
def actor_mesh {M : Type} (a : Actor M) : M :=
  match a._mesh with
  | some m => m
  | none => a.mesh

/-- `Plane.intersectWith(mesh)`: delegates to the external cutter with this
center and normal. -/
def Plane.intersectWith {M : Type} (p : Plane) (ops : MeshOps M) (mesh : M) : M :=
  ops.intersect_with_plane mesh p.center p.normal

/-- `Plane.get_projections(actors)`: for each actor, intersect its effective
mesh with the plane; skip the actor when the intersection has zero points;
otherwise split the intersection into connected pieces and emit, for the
piece at enumeration index `piece_n`, the entry
`name + "_segment_" + piece_n ↦ P3toP2(piece.join(reset=True).points())`. -/
def Plane.get_projections {M : Type} (p : Plane) (ops : MeshOps M)
    (actors : List (Actor M)) : List (String × List (ℝ × ℝ)) :=
  actors.foldl (fun projected actor =>
    let intersection := p.intersectWith ops (actor_mesh actor)
    if (ops.points intersection).length = 0 then projected
    else
      ((ops.splitByConnectivity intersection).enum).foldl
        (fun proj pn =>
          let points := ops.points (ops.join pn.2)
          proj ++ [(actor.name ++ "_segment_" ++ toString pn.1, p.P3toP2 points)])
        projected) []

/-- The entries `Plane.get_projections` emits for a single actor, in order:
nothing when the intersection has zero points, otherwise one entry per
connected piece in enumeration order. The lemma `get_projections_eq_flatMap`
proves that `Plane.get_projections` is the concatenation of these blocks. -/
def proj_entries {M : Type} (p : Plane) (ops : MeshOps M) (a : Actor M) :
    List (String × List (ℝ × ℝ)) :=
  let intersection := p.intersectWith ops (actor_mesh a)
  if (ops.points intersection).length = 0 then []
  else
    (ops.splitByConnectivity intersection).enum.map
      (fun pn => (a.name ++ "_segment_" ++ toString pn.1,
                  p.P3toP2 (ops.points (ops.join pn.2))))

/-! Concrete sample objects used to instantiate the general theorems. -/

/-- A concrete plane value: the xy-plane through the origin. -/
def P0 : Plane :=
  ⟨vec 0 0 0, vec 1 0 0, vec 0 1 0, vec 0 0 1, (vec 1 0 0, vec 0 1 0)⟩

/-- The plane produced by `Plane.construct (vec 0 0 0) (vec 1 0 0)
(vec 0 1 0)`, written with the exact field values the constructor stores. -/
def P4w : Plane :=
  ⟨vec 0 0 0,
   div3 (vec 1 0 0) (norm3 (vec 1 0 0)),
   div3 (vec 0 1 0) (norm3 (vec 0 1 0)),
   cross3 (div3 (vec 1 0 0) (norm3 (vec 1 0 0)))
          (div3 (vec 0 1 0) (norm3 (vec 0 1 0))),
   (vec 1 0 0, vec 0 1 0)⟩

/-- Sample external mesh primitives whose plane intersection is empty. -/
def opsEmpty : MeshOps Unit :=
  ⟨fun _ _ _ => (), fun _ => [], fun _ => [], fun m => m⟩

/-- Sample external mesh primitives whose plane intersection is a single
connected piece that degenerates to one point (a tangential intersection). -/
def opsPoint : MeshOps Unit :=
  ⟨fun _ _ _ => (), fun _ => [vec 0 0 0], fun _ => [()], fun m => m⟩

/-- A sample actor named "A" with no `_mesh` attribute. -/
def actorA : Actor Unit := ⟨"A", (), none⟩

/-! Helper lemmas about the vector algebra of the embedding. -/

theorem vec_zero (a b c : ℝ) : vec a b c 0 = a := rfl

theorem vec_one (a b c : ℝ) : vec a b c 1 = b := rfl

theorem vec_two (a b c : ℝ) : vec a b c 2 = c := rfl

theorem cross3_zero (a b : Vec3) : cross3 a b 0 = a 1 * b 2 - a 2 * b 1 := rfl

theorem cross3_one (a b : Vec3) : cross3 a b 1 = a 2 * b 0 - a 0 * b 2 := rfl

theorem cross3_two (a b : Vec3) : cross3 a b 2 = a 0 * b 1 - a 1 * b 0 := rfl

theorem dot3_comm (a b : Vec3) : dot3 a b = dot3 b a := by
  simp only [dot3]; ring

theorem dot3_self_nonneg (a : Vec3) : 0 ≤ dot3 a a := by
  simp only [dot3]
  have h0 := mul_self_nonneg (a 0)
  have h1 := mul_self_nonneg (a 1)
  have h2 := mul_self_nonneg (a 2)
  linarith

theorem sq_norm3 (a : Vec3) : norm3 a ^ 2 = dot3 a a :=
  Real.sq_sqrt (dot3_self_nonneg a)

theorem norm3_nonneg (a : Vec3) : 0 ≤ norm3 a := Real.sqrt_nonneg _

/-- A vector with a nonzero component has a nonzero norm. -/
theorem dot3_self_pos (a : Vec3) (i : Fin 3) (h : a i ≠ 0) : 0 < dot3 a a := by
  have h0 := mul_self_nonneg (a 0)
  have h1 := mul_self_nonneg (a 1)
  have h2 := mul_self_nonneg (a 2)
  have h3 : a 0 ≠ 0 ∨ a 1 ≠ 0 ∨ a 2 ≠ 0 := by
    rcases i with ⟨iv, hlt⟩
    interval_cases iv
    · exact Or.inl h
    · exact Or.inr (Or.inl h)
    · exact Or.inr (Or.inr h)
  simp only [dot3]
  rcases h3 with h|h|h <;> nlinarith [mul_self_pos.mpr h]

theorem norm3_ne_zero (a : Vec3) (i : Fin 3) (h : a i ≠ 0) : norm3 a ≠ 0 :=
  ne_of_gt (Real.sqrt_pos.mpr (dot3_self_pos a i h))

/-- Scaling inside a dot product: dot of componentwise quotients. -/
theorem dot3_div3 (a b : Vec3) (s t : ℝ) :
    dot3 (div3 a s) (div3 b t) = dot3 a b / (s * t) := by
  simp only [dot3, div3, division_def, mul_inv]
  ring

/-- Normalizing a vector of nonzero norm yields a unit vector. -/
theorem norm3_div3_norm3 (a : Vec3) (h : norm3 a ≠ 0) :
    norm3 (div3 a (norm3 a)) = 1 := by
  have h1 : dot3 (div3 a (norm3 a)) (div3 a (norm3 a)) = 1 := by
    rw [dot3_div3, ← sq_norm3]
    field_simp
    ring
  rw [norm3, h1, Real.sqrt_one]

theorem div3_one (a : Vec3) : div3 a 1 = a := by
  funext i; simp [div3]

/-- The triple product of a vector with a cross product containing it
vanishes. -/
theorem dot3_cross3_left (a b : Vec3) : dot3 a (cross3 a b) = 0 := by
  simp only [dot3, cross3_zero, cross3_one, cross3_two]
  ring

theorem dot3_cross3_right (a b : Vec3) : dot3 b (cross3 a b) = 0 := by
  simp only [dot3, cross3_zero, cross3_one, cross3_two]
  ring

/-- The Lagrange identity for the 3-dimensional cross product. -/
theorem dot3_cross3_self (a b : Vec3) :
    dot3 (cross3 a b) (cross3 a b) = dot3 a a * dot3 b b - dot3 a b ^ 2 := by
  simp only [dot3, cross3_zero, cross3_one, cross3_two]
  ring

/-- Componentwise characterization of a `Vec3`. -/
theorem vec3_ext (w : Vec3) (a b c : ℝ)
    (h0 : w 0 = a) (h1 : w 1 = b) (h2 : w 2 = c) : w = vec a b c := by
  funext i
  rcases i with ⟨iv, hlt⟩
  interval_cases iv
  · exact h0
  · exact h1
  · exact h2

/-! The claim theorems. -/

/-- Claim C8: for every bounding box (6 scalars, min/max per axis),
`Plane.to_mesh` computes side length `max(extent_x, extent_y, extent_z) *
4/3` and returns a square quad of exactly that side length in both in-plane
directions, centered at the plane origin and oriented with its normal. -/
theorem C8_to_mesh_square_quad (p : Plane) (bounds : Fin 6 → ℝ) :
    (p.to_mesh bounds).sx
      = max (bounds 1 - bounds 0) (max (bounds 3 - bounds 2) (bounds 5 - bounds 4)) * (4 / 3) ∧
    (p.to_mesh bounds).sy = (p.to_mesh bounds).sx ∧
    (p.to_mesh bounds).pos = p.center ∧
    (p.to_mesh bounds).normal = p.normal ∧
    (p.to_mesh bounds).width = (p.to_mesh bounds).sx := by
  refine ⟨?_, rfl, rfl, rfl, rfl⟩
  show (let length := max (bounds 1 - bounds 0) (max (bounds 3 - bounds 2) (bounds 5 - bounds 4));
        length + length / 3) = _
  ring

/-- Claim C2: construction fails whenever, after normalizing `u` and `v` to
unit length, `|u · v|` exceeds the tolerance `1e-6` (the internal
`np.isclose` check is even stricter: it tolerates at most `1e-8`). -/
theorem C2_nonorthogonal_axes_fail (origin u v : Vec3)
    (h : (1e-6 : ℝ) < |dot3 (div3 u (norm3 u)) (div3 v (norm3 v))|) :
    Plane.construct origin u v = none := by
  simp only [Plane.construct]
  rw [if_neg]
  rintro ⟨-, -, hc⟩
  simp only [np_isclose, sub_zero, abs_zero, mul_zero, add_zero] at hc
  have hx : (1e-8 : ℝ) < (1e-6 : ℝ) := by norm_num
  linarith

/-- Witness for C2 at the concrete failing input of the claim:
`u = v = (1,0,0)` is rejected. -/
theorem C2_nonorthogonal_axes_fail_witness :
    (1e-6 : ℝ) < |dot3 (div3 (vec 1 0 0) (norm3 (vec 1 0 0)))
                       (div3 (vec 1 0 0) (norm3 (vec 1 0 0)))| ∧
    Plane.construct (vec 0 0 0) (vec 1 0 0) (vec 1 0 0) = none := by
  have h1 : norm3 (vec 1 0 0) = 1 := by
    simp [norm3, dot3, vec_zero, vec_one, vec_two]
  have h : (1e-6 : ℝ) < |dot3 (div3 (vec 1 0 0) (norm3 (vec 1 0 0)))
                             (div3 (vec 1 0 0) (norm3 (vec 1 0 0)))| := by
    rw [h1, div3_one]
    simp only [dot3, vec_zero, vec_one, vec_two]
    norm_num
  exact ⟨h, C2_nonorthogonal_axes_fail _ _ _ h⟩

/-- Claim C3: deriving a plane from the zero normal vector fails (the
python code raises on the empty `np.where` result; the specification calls
the failure `GeometryError`). -/
theorem C3_from_norm_zero_normal_fails (origin : Vec3) :
    Plane.from_norm origin (vec 0 0 0) = none := by
  have h : firstNonzero (vec 0 0 0) = none := by
    simp [firstNonzero, vec_zero, vec_one, vec_two]
  simp [Plane.from_norm, h]

/-- Inversion for `Plane.construct`: what must hold of a successfully
constructed plane. -/
theorem construct_some (o u v : Vec3) (P : Plane)
    (h : Plane.construct o u v = some P) :
    P.center = o ∧
    P.u = div3 u (norm3 u) ∧
    P.v = div3 v (norm3 v) ∧
    P.normal = cross3 P.u P.v ∧
    P.M = (u, v) ∧
    norm3 u ≠ 0 ∧ norm3 v ≠ 0 ∧
    |dot3 P.u P.v| ≤ (1e-8 : ℝ) := by
  simp only [Plane.construct] at h
  split at h
  case isTrue hc =>
    obtain ⟨h1, h2, h3⟩ := hc
    cases h
    refine ⟨rfl, rfl, rfl, rfl, rfl, h1, h2, ?_⟩
    simpa only [np_isclose, sub_zero, abs_zero, mul_zero, add_zero] using h3
  case isFalse => exact absurd h (by simp)

/-- Conversely, when the orthogonality check passes the constructor
succeeds and stores exactly these fields. -/
theorem construct_eq_some (o u v : Vec3)
    (h1 : norm3 u ≠ 0) (h2 : norm3 v ≠ 0)
    (h3 : |dot3 (div3 u (norm3 u)) (div3 v (norm3 v))| ≤ (1e-8 : ℝ)) :
    Plane.construct o u v =
      some ⟨o, div3 u (norm3 u), div3 v (norm3 v),
            cross3 (div3 u (norm3 u)) (div3 v (norm3 v)), (u, v)⟩ := by
  simp only [Plane.construct]
  rw [if_pos]
  exact ⟨h1, h2, by simpa only [np_isclose, sub_zero, abs_zero, mul_zero, add_zero] using h3⟩

theorem norm3_vec_100 : norm3 (vec 1 0 0) = 1 := by
  simp [norm3, dot3, vec_zero, vec_one, vec_two]

theorem norm3_vec_010 : norm3 (vec 0 1 0) = 1 := by
  simp [norm3, dot3, vec_zero, vec_one, vec_two]

theorem norm3_vec_200 : norm3 (vec 2 0 0) = 2 := by
  have h : dot3 (vec 2 0 0) (vec 2 0 0) = 4 := by
    simp only [dot3, vec_zero, vec_one, vec_two]
    norm_num
  rw [norm3, h, show (4 : ℝ) = 2 ^ 2 by norm_num, Real.sqrt_sq (by norm_num)]

/-- Claim C1 is refuted by the code: `Plane.__init__` stores
`self.M = np.vstack([u, v]).T` from the *raw* constructor arguments instead
of the normalized `self.u, self.v`, although it normalizes and stores
`self.u = u/|u|` and `self.v = v/|v|`. Hence for the non-unit input
`u = (2,0,0), v = (0,1,0)` and the point `p = origin + 1·û + 0·v̂ =
(1,0,0)`, `P3toP2([p])` returns `(2, 0)` where the claim (and the stated
round-trip property of the specification) requires `(1, 0)`. -/
theorem C1_basisMatrix_not_normalized :
    ∃ P : Plane,
      Plane.construct (vec 0 0 0) (vec 2 0 0) (vec 0 1 0) = some P ∧
      P.u = vec 1 0 0 ∧ P.v = vec 0 1 0 ∧
      P.M = (vec 2 0 0, vec 0 1 0) ∧
      P.P3toP2 [vec 1 0 0] = [((2 : ℝ), (0 : ℝ))] ∧
      P.P3toP2 [vec 1 0 0] ≠ [((1 : ℝ), (0 : ℝ))] := by
  have hu : div3 (vec 2 0 0) (norm3 (vec 2 0 0)) = vec 1 0 0 := by
    rw [norm3_vec_200]
    refine vec3_ext _ _ _ _ ?_ ?_ ?_ <;>
      simp only [div3, vec_zero, vec_one, vec_two] <;> norm_num
  have hv : div3 (vec 0 1 0) (norm3 (vec 0 1 0)) = vec 0 1 0 := by
    rw [norm3_vec_010, div3_one]
  have hdot : |dot3 (div3 (vec 2 0 0) (norm3 (vec 2 0 0)))
                   (div3 (vec 0 1 0) (norm3 (vec 0 1 0)))| ≤ (1e-8 : ℝ) := by
    rw [hu, hv]
    simp only [dot3, vec_zero, vec_one, vec_two]
    norm_num
  have hc := construct_eq_some (vec 0 0 0) (vec 2 0 0) (vec 0 1 0)
    (by rw [norm3_vec_200]; norm_num) (by rw [norm3_vec_010]; norm_num) hdot
  refine ⟨_, hc, ?_, ?_, rfl, ?_, ?_⟩
  · exact hu
  · exact hv
  · simp only [Plane.P3toP2, List.map, dot3, sub3, vec_zero, vec_one, vec_two]
    norm_num
  · simp only [Plane.P3toP2, List.map, dot3, sub3, vec_zero, vec_one, vec_two]
    norm_num

/-- The cross product of two unit vectors that are orthogonal up to `1e-8`
has norm within `1e-16` of one. -/
theorem norm3_cross3_near_one (a b : Vec3) (ha : norm3 a = 1) (hb : norm3 b = 1)
    (hd : |dot3 a b| ≤ (1e-8 : ℝ)) : |norm3 (cross3 a b) - 1| ≤ (1e-16 : ℝ) := by
  have hda : dot3 a a = 1 := by rw [← sq_norm3, ha]; norm_num
  have hdb : dot3 b b = 1 := by rw [← sq_norm3, hb]; norm_num
  have hcc : dot3 (cross3 a b) (cross3 a b) = 1 - dot3 a b ^ 2 := by
    rw [dot3_cross3_self, hda, hdb]; ring
  have hd2 : dot3 a b ^ 2 ≤ (1e-16 : ℝ) := by
    nlinarith [hd, abs_nonneg (dot3 a b), sq_abs (dot3 a b)]
  have h0 : (0 : ℝ) ≤ 1 - dot3 a b ^ 2 := by nlinarith
  have hup : norm3 (cross3 a b) ≤ 1 := by
    rw [norm3, hcc]
    calc Real.sqrt (1 - dot3 a b ^ 2) ≤ Real.sqrt 1 :=
          Real.sqrt_le_sqrt (by nlinarith [sq_nonneg (dot3 a b)])
      _ = 1 := Real.sqrt_one
  have hlow : 1 - (1e-16 : ℝ) ≤ norm3 (cross3 a b) := by
    rw [norm3, hcc]
    have hx : (1 - dot3 a b ^ 2 : ℝ) ≤ Real.sqrt (1 - dot3 a b ^ 2) := by
      rw [Real.le_sqrt h0 h0]
      nlinarith
    linarith
  rw [abs_le]
  constructor <;> linarith

/-- A plane produced by `Plane.from_norm` is produced by the constructor. -/
theorem from_norm_factors (o n : Vec3) (P : Plane)
    (h : Plane.from_norm o n = some P) :
    ∃ o2 u2 v2, Plane.construct o2 u2 v2 = some P := by
  simp only [Plane.from_norm] at h
  rcases hfn : firstNonzero n with _ | m
  · rw [hfn] at h
    exact absurd h (by simp)
  · rw [hfn] at h
    exact ⟨_, _, _, h⟩

/-- Claim C4: every successfully constructed plane satisfies — and, all
operations of the embedding being pure, keeps — the orthonormality
invariant: `u` and `v` are unit, `|u·v| ≤ 1e-8` (the `np.isclose`
tolerance), `normal = u × v` exactly (hence exactly orthogonal to `u` and
`v`) and has norm within `1e-16` of one. -/
theorem C4_orthonormal_invariant (P : Plane)
    (h : (∃ o u v, Plane.construct o u v = some P) ∨
         (∃ o n, Plane.from_norm o n = some P)) :
    norm3 P.u = 1 ∧ norm3 P.v = 1 ∧ |dot3 P.u P.v| ≤ (1e-8 : ℝ) ∧
    dot3 P.u P.normal = 0 ∧ dot3 P.v P.normal = 0 ∧
    P.normal = cross3 P.u P.v ∧ |norm3 P.normal - 1| ≤ (1e-16 : ℝ) := by
  have hcon : ∃ o u v, Plane.construct o u v = some P := by
    rcases h with h | ⟨o, n, h⟩
    · exact h
    · exact from_norm_factors o n P h
  obtain ⟨o, u, v, hc⟩ := hcon
  obtain ⟨-, hu, hv, hn, -, hnu, hnv, hd⟩ := construct_some o u v P hc
  have h1 : norm3 P.u = 1 := by rw [hu]; exact norm3_div3_norm3 u hnu
  have h2 : norm3 P.v = 1 := by rw [hv]; exact norm3_div3_norm3 v hnv
  refine ⟨h1, h2, hd, ?_, ?_, hn, ?_⟩
  · rw [hn]; exact dot3_cross3_left _ _
  · rw [hn]; exact dot3_cross3_right _ _
  · rw [hn]; exact norm3_cross3_near_one P.u P.v h1 h2 hd

/-- Witness for C4: the plane constructed from `u = (1,0,0), v = (0,1,0)`
satisfies the invariant. -/
theorem C4_orthonormal_invariant_witness :
    ((∃ o u v, Plane.construct o u v = some P4w) ∨
     (∃ o n, Plane.from_norm o n = some P4w)) ∧
    (norm3 P4w.u = 1 ∧ norm3 P4w.v = 1 ∧ |dot3 P4w.u P4w.v| ≤ (1e-8 : ℝ) ∧
     dot3 P4w.u P4w.normal = 0 ∧ dot3 P4w.v P4w.normal = 0 ∧
     P4w.normal = cross3 P4w.u P4w.v ∧
     |norm3 P4w.normal - 1| ≤ (1e-16 : ℝ)) := by
  have hdot : |dot3 (div3 (vec 1 0 0) (norm3 (vec 1 0 0)))
                   (div3 (vec 0 1 0) (norm3 (vec 0 1 0)))| ≤ (1e-8 : ℝ) := by
    rw [norm3_vec_100, norm3_vec_010, div3_one, div3_one]
    simp only [dot3, vec_zero, vec_one, vec_two]
    norm_num
  have hc : Plane.construct (vec 0 0 0) (vec 1 0 0) (vec 0 1 0) = some P4w :=
    construct_eq_some _ _ _ (by rw [norm3_vec_100]; norm_num)
      (by rw [norm3_vec_010]; norm_num) hdot
  have hyp : (∃ o u v, Plane.construct o u v = some P4w) ∨
      (∃ o n, Plane.from_norm o n = some P4w) := Or.inl ⟨_, _, _, hc⟩
  exact ⟨hyp, C4_orthonormal_invariant P4w hyp⟩

/-- `firstNonzero` returns an index whose component is nonzero. -/
theorem firstNonzero_some (a : Vec3) (m : Fin 3)
    (h : firstNonzero a = some m) : a m ≠ 0 := by
  simp only [firstNonzero] at h
  split_ifs at h with h0 h1 h2
  · cases h; exact h0
  · cases h; exact h1
  · cases h; exact h2

theorem u_of_norm_at_zero (norm : Vec3) :
    u_of_norm norm 0 = vec (-(norm 1)) (norm 0) 0 :=
  vec3_ext _ _ _ _ rfl rfl rfl

theorem u_of_norm_at_one (norm : Vec3) :
    u_of_norm norm 1 = vec 0 (-(norm 2)) (norm 1) :=
  vec3_ext _ _ _ _ rfl rfl rfl

theorem u_of_norm_at_two (norm : Vec3) :
    u_of_norm norm 2 = vec (norm 2) 0 (-(norm 0)) :=
  vec3_ext _ _ _ _ rfl rfl rfl

/-- The algebraic identity of the claim: the derived in-plane vector is
exactly orthogonal to the input normal, before any normalization. -/
theorem dot3_u_of_norm (norm : Vec3) (m : Fin 3) :
    dot3 (u_of_norm norm m) norm = 0 := by
  rcases m with ⟨mv, hm⟩
  interval_cases mv
  · show dot3 (u_of_norm norm 0) norm = 0
    rw [u_of_norm_at_zero]
    simp only [dot3, vec_zero, vec_one, vec_two]
    ring
  · show dot3 (u_of_norm norm 1) norm = 0
    rw [u_of_norm_at_one]
    simp only [dot3, vec_zero, vec_one, vec_two]
    ring
  · show dot3 (u_of_norm norm 2) norm = 0
    rw [u_of_norm_at_two]
    simp only [dot3, vec_zero, vec_one, vec_two]
    ring

/-- The derived in-plane vector is nonzero when the selected component of
the normal is nonzero. -/
theorem norm3_u_of_norm_ne_zero (norm : Vec3) (m : Fin 3) (h : norm m ≠ 0) :
    norm3 (u_of_norm norm m) ≠ 0 := by
  rcases m with ⟨mv, hm⟩
  interval_cases mv
  · exact norm3_ne_zero (u_of_norm norm 0) 1 h
  · exact norm3_ne_zero (u_of_norm norm 1) 2 h
  · exact norm3_ne_zero (u_of_norm norm 2) 0 h

/-- Claim C5: for every normal with a nonzero component (selected at the
lowest nonzero index `m`, as `np.where` does), `from_norm` succeeds; the
derived vector `u_of_norm` is exactly orthogonal to the input normal, the
stored `u` is its normalization and the stored `v` is the cross product of
the normalized normal with `u`. Determinism is inherent: the embedding is
a function of its arguments. -/
theorem C5_from_norm_derivation (origin norm : Vec3) (m : Fin 3)
    (h : firstNonzero norm = some m) :
    dot3 (u_of_norm norm m) norm = 0 ∧
    ∃ P, Plane.from_norm origin norm = some P ∧
      P.u = div3 (u_of_norm norm m) (norm3 (u_of_norm norm m)) ∧
      P.v = cross3 (div3 norm (norm3 norm)) P.u := by
  have hm : norm m ≠ 0 := firstNonzero_some norm m h
  have hdot0 : dot3 (u_of_norm norm m) norm = 0 := dot3_u_of_norm norm m
  have hnu : norm3 (u_of_norm norm m) ≠ 0 := norm3_u_of_norm_ne_zero norm m hm
  have hnn : norm3 norm ≠ 0 := norm3_ne_zero norm m hm
  have h1 : norm3 (div3 (u_of_norm norm m) (norm3 (u_of_norm norm m))) = 1 :=
    norm3_div3_norm3 _ hnu
  have h2 : norm3 (div3 norm (norm3 norm)) = 1 := norm3_div3_norm3 _ hnn
  have hdnu : dot3 (div3 norm (norm3 norm))
      (div3 (u_of_norm norm m) (norm3 (u_of_norm norm m))) = 0 := by
    rw [dot3_div3, dot3_comm norm (u_of_norm norm m), hdot0, zero_div]
  have hdvv : dot3
      (cross3 (div3 norm (norm3 norm))
        (div3 (u_of_norm norm m) (norm3 (u_of_norm norm m))))
      (cross3 (div3 norm (norm3 norm))
        (div3 (u_of_norm norm m) (norm3 (u_of_norm norm m)))) = 1 := by
    rw [dot3_cross3_self, ← sq_norm3, ← sq_norm3, h1, h2, hdnu]
    norm_num
  have h3 : norm3 (cross3 (div3 norm (norm3 norm))
      (div3 (u_of_norm norm m) (norm3 (u_of_norm norm m)))) = 1 := by
    rw [norm3, hdvv, Real.sqrt_one]
  have hduv : |dot3
      (div3 (div3 (u_of_norm norm m) (norm3 (u_of_norm norm m)))
        (norm3 (div3 (u_of_norm norm m) (norm3 (u_of_norm norm m)))))
      (div3 (cross3 (div3 norm (norm3 norm))
          (div3 (u_of_norm norm m) (norm3 (u_of_norm norm m))))
        (norm3 (cross3 (div3 norm (norm3 norm))
          (div3 (u_of_norm norm m) (norm3 (u_of_norm norm m))))))| ≤ (1e-8 : ℝ) := by
    rw [h1, h3, div3_one, div3_one, dot3_cross3_right]
    norm_num
  have harm : Plane.from_norm origin norm =
      Plane.construct origin
        (div3 (u_of_norm norm m) (norm3 (u_of_norm norm m)))
        (cross3 (div3 norm (norm3 norm))
          (div3 (u_of_norm norm m) (norm3 (u_of_norm norm m)))) := by
    simp only [Plane.from_norm]
    rw [h]
  have hc := construct_eq_some origin
    (div3 (u_of_norm norm m) (norm3 (u_of_norm norm m)))
    (cross3 (div3 norm (norm3 norm))
      (div3 (u_of_norm norm m) (norm3 (u_of_norm norm m))))
    (by rw [h1]; norm_num) (by rw [h3]; norm_num) hduv
  refine ⟨hdot0, _, by rw [harm, hc], ?_, ?_⟩
  · show div3 (div3 (u_of_norm norm m) (norm3 (u_of_norm norm m)))
        (norm3 (div3 (u_of_norm norm m) (norm3 (u_of_norm norm m))))
      = div3 (u_of_norm norm m) (norm3 (u_of_norm norm m))
    rw [h1, div3_one]
  · show div3 (cross3 (div3 norm (norm3 norm))
          (div3 (u_of_norm norm m) (norm3 (u_of_norm norm m))))
        (norm3 (cross3 (div3 norm (norm3 norm))
          (div3 (u_of_norm norm m) (norm3 (u_of_norm norm m)))))
      = cross3 (div3 norm (norm3 norm))
          (div3 (div3 (u_of_norm norm m) (norm3 (u_of_norm norm m)))
            (norm3 (div3 (u_of_norm norm m) (norm3 (u_of_norm norm m)))))
    rw [h1, h3, div3_one, div3_one]

/-- Witness for C5 at `normal = (1,0,0)`: the selected index is `m = 0`. -/
theorem C5_from_norm_derivation_witness :
    firstNonzero (vec 1 0 0) = some 0 ∧
    (dot3 (u_of_norm (vec 1 0 0) 0) (vec 1 0 0) = 0 ∧
     ∃ P, Plane.from_norm (vec 0 0 0) (vec 1 0 0) = some P ∧
       P.u = div3 (u_of_norm (vec 1 0 0) 0) (norm3 (u_of_norm (vec 1 0 0) 0)) ∧
       P.v = cross3 (div3 (vec 1 0 0) (norm3 (vec 1 0 0))) P.u) := by
  have h : firstNonzero (vec 1 0 0) = some 0 := by
    simp [firstNonzero, vec_zero]
  exact ⟨h, C5_from_norm_derivation (vec 0 0 0) (vec 1 0 0) 0 h⟩

/-- A left fold that appends one element per step is a map. -/
theorem foldl_append_singleton {α β : Type _} (g : α → β) :
    ∀ (l : List α) (init : List β),
      l.foldl (fun acc x => acc ++ [g x]) init = init ++ l.map g := by
  intro l
  induction l with
  | nil => intro init; simp
  | cons a t ih =>
    intro init
    rw [List.foldl_cons, ih, List.map_cons]
    simp

/-- The fold of `Plane.get_projections`, from an arbitrary accumulator. -/
theorem get_projections_aux {M : Type} (p : Plane) (ops : MeshOps M) :
    ∀ (actors : List (Actor M)) (acc : List (String × List (ℝ × ℝ))),
      actors.foldl (fun projected actor =>
        let intersection := p.intersectWith ops (actor_mesh actor)
        if (ops.points intersection).length = 0 then projected
        else
          ((ops.splitByConnectivity intersection).enum).foldl
            (fun proj pn =>
              let points := ops.points (ops.join pn.2)
              proj ++ [(actor.name ++ "_segment_" ++ toString pn.1, p.P3toP2 points)])
            projected) acc
      = acc ++ actors.flatMap (proj_entries p ops) := by
  intro actors
  induction actors with
  | nil => intro acc; simp
  | cons a t ih =>
    intro acc
    rw [List.foldl_cons, ih, List.flatMap_cons, ← List.append_assoc]
    congr 1
    show (if (ops.points (p.intersectWith ops (actor_mesh a))).length = 0 then acc
          else ((ops.splitByConnectivity (p.intersectWith ops (actor_mesh a))).enum).foldl
            (fun proj pn =>
              proj ++ [(a.name ++ "_segment_" ++ toString pn.1,
                        p.P3toP2 (ops.points (ops.join pn.2)))]) acc)
        = acc ++ proj_entries p ops a
    by_cases hz : (ops.points (p.intersectWith ops (actor_mesh a))).length = 0
    · rw [if_pos hz]
      simp [proj_entries, hz]
    · rw [if_neg hz]
      simp only [proj_entries, if_neg hz]
      exact foldl_append_singleton _ _ acc

/-- `Plane.get_projections` emits, in actor order, one block of entries per
actor. -/
theorem get_projections_eq_flatMap {M : Type} (p : Plane) (ops : MeshOps M)
    (actors : List (Actor M)) :
    p.get_projections ops actors = actors.flatMap (proj_entries p ops) := by
  have h := get_projections_aux p ops actors []
  simpa [Plane.get_projections] using h

/-- Claim C6: a mesh whose plane intersection has zero points is skipped
entirely: the output over a list containing that actor equals the output
over the list without it (so no key and no empty entry is emitted for it),
and no error is raised — `get_projections` is a total function. -/
theorem C6_empty_intersection_skipped {M : Type} (p : Plane) (ops : MeshOps M)
    (pre post : List (Actor M)) (a : Actor M)
    (h : ops.points (p.intersectWith ops (actor_mesh a)) = []) :
    p.get_projections ops (pre ++ a :: post) = p.get_projections ops (pre ++ post) := by
  have ha : proj_entries p ops a = [] := by
    simp [proj_entries, h]
  rw [get_projections_eq_flatMap, get_projections_eq_flatMap]
  simp [List.flatMap_append, List.flatMap_cons, ha]

/-- Witness for C6: an actor whose intersection is empty produces the same
(empty) output as no actor at all. -/
theorem C6_empty_intersection_skipped_witness :
    opsEmpty.points (P0.intersectWith opsEmpty (actor_mesh actorA)) = [] ∧
    P0.get_projections opsEmpty ([] ++ actorA :: []) = P0.get_projections opsEmpty ([] ++ []) :=
  ⟨rfl, C6_empty_intersection_skipped P0 opsEmpty [] [] actorA rfl⟩

/-- Claim C7: every output entry of `get_projections` is, for some actor of
the input list, keyed `name ++ "_segment_" ++ n` with `n` the 0-based index
of the connected piece in the discovery (enumeration) order of the split,
and carries the projection of exactly that piece. -/
theorem C7_segment_keys {M : Type} (p : Plane) (ops : MeshOps M)
    (actors : List (Actor M)) (e : String × List (ℝ × ℝ))
    (he : e ∈ p.get_projections ops actors) :
    ∃ a ∈ actors, ∃ n : ℕ,
      ∃ hn : n < (ops.splitByConnectivity (p.intersectWith ops (actor_mesh a))).length,
      e.1 = a.name ++ "_segment_" ++ toString n ∧
      e.2 = p.P3toP2 (ops.points (ops.join
        ((ops.splitByConnectivity (p.intersectWith ops (actor_mesh a))).get ⟨n, hn⟩))) := by
  rw [get_projections_eq_flatMap] at he
  obtain ⟨a, ha, hea⟩ := List.mem_flatMap.mp he
  refine ⟨a, ha, ?_⟩
  simp only [proj_entries] at hea
  split at hea
  · exact absurd hea (by simp)
  · obtain ⟨pn, hpn, hcode⟩ := List.mem_map.mp hea
    have hget := List.mem_enum_iff_getElem?.mp hpn
    have hlt : pn.1 < (ops.splitByConnectivity (p.intersectWith ops (actor_mesh a))).length :=
      (List.getElem?_eq_some.mp hget).1
    refine ⟨pn.1, hlt, ?_, ?_⟩
    · rw [← hcode]
    · rw [← hcode]
      have hval : (ops.splitByConnectivity (p.intersectWith ops (actor_mesh a))).get ⟨pn.1, hlt⟩ = pn.2 := by
        have := (List.getElem?_eq_some.mp hget).2
        simpa [List.get_eq_getElem] using this
      rw [hval]

/-- Witness for C7: with a one-piece intersection, the single entry is the
piece at index 0 under key `"A" ++ "_segment_" ++ toString 0`. -/
theorem C7_segment_keys_witness :
    ("A" ++ "_segment_" ++ toString 0, P0.P3toP2 [vec 0 0 0])
        ∈ P0.get_projections opsPoint [actorA] ∧
    ∃ a ∈ [actorA], ∃ n : ℕ,
      ∃ hn : n < (opsPoint.splitByConnectivity
        (P0.intersectWith opsPoint (actor_mesh a))).length,
      ("A" ++ "_segment_" ++ toString 0, P0.P3toP2 [vec 0 0 0]).1
        = a.name ++ "_segment_" ++ toString n ∧
      ("A" ++ "_segment_" ++ toString 0, P0.P3toP2 [vec 0 0 0]).2
        = P0.P3toP2 (opsPoint.points (opsPoint.join
          ((opsPoint.splitByConnectivity
            (P0.intersectWith opsPoint (actor_mesh a))).get ⟨n, hn⟩))) := by
  have he : ("A" ++ "_segment_" ++ toString 0, P0.P3toP2 [vec 0 0 0])
      ∈ P0.get_projections opsPoint [actorA] := by
    rw [get_projections_eq_flatMap]
    simp [proj_entries, opsPoint, actorA, Plane.intersectWith, actor_mesh, List.enum]
  exact ⟨he, C7_segment_keys P0 opsPoint [actorA] _ he⟩

/-- Claim C9: the mesh that is intersected is `actor._mesh` whenever the
attribute is present and `actor.mesh` otherwise; with `_mesh` present the
output is independent of `actor.mesh`, which is therefore never sliced. -/
theorem C9_hidden_mesh_preferred {M : Type} (p : Plane) (ops : MeshOps M)
    (pre post : List (Actor M)) (name : String) (m1 m2 hm : M) :
    actor_mesh ⟨name, m1, some hm⟩ = hm ∧
    actor_mesh ⟨name, m1, none⟩ = m1 ∧
    p.get_projections ops (pre ++ ⟨name, m1, some hm⟩ :: post)
      = p.get_projections ops (pre ++ ⟨name, m2, some hm⟩ :: post) := by
  refine ⟨rfl, rfl, ?_⟩
  rw [get_projections_eq_flatMap, get_projections_eq_flatMap]
  simp only [List.flatMap_append, List.flatMap_cons]
  have : proj_entries p ops ⟨name, m1, some hm⟩ = proj_entries p ops ⟨name, m2, some hm⟩ := rfl
  rw [this]

/-- Claim C10: no minimum-size filter is applied to connected pieces: when
the intersection is nonempty, the number of emitted entries equals the
number of pieces returned by the connectivity split, whatever the pieces
contain — including a degenerate single-point piece (see the witness). -/
theorem C10_no_piece_filter {M : Type} (p : Plane) (ops : MeshOps M) (a : Actor M)
    (h : (ops.points (p.intersectWith ops (actor_mesh a))).length ≠ 0) :
    (p.get_projections ops [a]).length
      = (ops.splitByConnectivity (p.intersectWith ops (actor_mesh a))).length := by
  rw [get_projections_eq_flatMap]
  simp [proj_entries, h]

/-- Witness for C10: a tangential intersection producing one single-point
piece still yields exactly one output entry. -/
theorem C10_no_piece_filter_witness :
    (opsPoint.points (P0.intersectWith opsPoint (actor_mesh actorA))).length ≠ 0 ∧
    (P0.get_projections opsPoint [actorA]).length
      = (opsPoint.splitByConnectivity (P0.intersectWith opsPoint (actor_mesh actorA))).length := by
  have h : (opsPoint.points (P0.intersectWith opsPoint (actor_mesh actorA))).length ≠ 0 := by
    simp [opsPoint, actorA, Plane.intersectWith, actor_mesh]
  exact ⟨h, C10_no_piece_filter P0 opsPoint actorA h⟩

end

end BGH
